/-
Verification of the lazyledger-core block store and block types.

The development shallowly embeds:

* `types/block.go` — `Block`, `Header`, `Commit`, `DataAvailabilityHeader`,
  `Block.Hash`, `Block.fillHeader`, `Block.MakePartSet`;
* the persistent block store (`store` package) — `SaveBlock`, `LoadBlock`,
  `LoadBlockByHash`, `LoadBlockMeta`, `LoadBlockPart`, `LoadBlockCommit`,
  `LoadSeenCommit`, `PruneBlocks`, `SaveBlockStoreState`,
  `LoadBlockStoreState`, `Base`, `Height`, `Size`.

The store implementation file itself is not part of the sources at hand
(only its test suite is), so store operations are modelled from the spec
(sections 4.C-4.G), constrained to agree with the behaviour the test suite
pins down.  External collaborators that the spec puts out of scope
(protobuf serialization, merkle hashing, erasure coding) are modelled as
concrete deterministic stand-in functions.

Machine integers (`int64` heights) are modelled as `Int`; byte strings as
`List Nat`.  Fallible operations return `Except StoreError _`; a Go `panic`
is the `StoreError.fatal` constructor and an ordinary returned error is
`StoreError.callerErr`.  The absent sentinel (`nil` result of a load) is
`Option.none` inside a successful `Except.ok`.
-/
import Mathlib

namespace LazyStore

/-- Byte strings are modelled as lists of naturals. -/
abbrev Bytes := List Nat

/-! ## A deterministic self-delimiting codec

The spec treats serialization as an external deterministic encoder/decoder
pair per entity kind (spec section 4.B).  We realise one concretely: every
decoder consumes a prefix of the input and returns the decoded value
together with the unconsumed rest, and decoding an encoding followed by
anything returns the value and that rest exactly. -/

/-- Encode a natural as a single symbol. -/
def encNat (n : Nat) : List Nat := [n]

/-- Decode a natural: take one symbol. -/
def decNat : List Nat → Option (Nat × List Nat)
  | [] => none
  | n :: rest => some (n, rest)

/-- Encode an integer as sign plus magnitude. -/
def encInt : Int → List Nat
  | Int.ofNat n => [0, n]
  | Int.negSucc n => [1, n]

/-- Decode an integer. -/
def decInt : List Nat → Option (Int × List Nat)
  | 0 :: n :: rest => some (Int.ofNat n, rest)
  | 1 :: n :: rest => some (Int.negSucc n, rest)
  | _ => none

/-- Encode a byte string: length then contents. -/
def encBytes (b : Bytes) : List Nat := b.length :: b

/-- Decode a byte string. -/
def decBytes (l : List Nat) : Option (Bytes × List Nat) :=
  match l with
  | [] => none
  | n :: rest => if n ≤ rest.length then some (rest.take n, rest.drop n) else none

/-- Encode an optional value. -/
def encOpt (enc : α → List Nat) : Option α → List Nat
  | none => [0]
  | some a => 1 :: enc a

/-- Decode an optional value. -/
def decOpt (dec : List Nat → Option (α × List Nat)) : List Nat → Option (Option α × List Nat)
  | 0 :: rest => some (none, rest)
  | 1 :: rest => (dec rest).map fun (a, r) => (some a, r)
  | _ => none

/-- Encode a list: length then the encoded elements. -/
def encListOf (enc : α → List Nat) (l : List α) : List Nat :=
  l.length :: l.flatMap enc

/-- Decode exactly `n` consecutive values. -/
def decCount (dec : List Nat → Option (α × List Nat)) : Nat → List Nat → Option (List α × List Nat)
  | 0, l => some ([], l)
  | n + 1, l =>
    match dec l with
    | none => none
    | some (a, l1) =>
      match decCount dec n l1 with
      | none => none
      | some (as, l2) => some (a :: as, l2)

/-- Decode a list encoded by `encListOf`. -/
def decListOf (dec : List Nat → Option (α × List Nat)) (l : List Nat) :
    Option (List α × List Nat) :=
  match l with
  | [] => none
  | n :: rest => decCount dec n rest

/-! ## Domain types (`types/block.go`)

Fields that none of the verified properties touch (chain id, time, the
previous block id, the app/consensus/results hashes, version) are omitted;
the fields the block store and `Block.Hash` depend on are kept. -/

/-- A quorum certificate (`types.Commit`).  `sigs` stands for the marshalled
commit signatures; the store treats commits as opaque values. -/
structure Commit where
  height : Int
  round : Int
  sigs : List Bytes
deriving DecidableEq, Repr

/-- Block header (`types.Header`).  A Go `nil` byte slice for one of the
derived hashes is `none`. -/
structure Header where
  height : Int
  lastCommitHash : Option Bytes
  dataHash : Option Bytes
  numOriginalDataShares : Nat
  validatorsHash : Bytes
  evidenceHash : Option Bytes
  proposerAddress : Bytes
deriving DecidableEq, Repr

/-- Block data (`types.Data`): transactions and marshalled evidence. -/
structure BlockData where
  txs : List Bytes
  evidence : List Bytes
deriving DecidableEq, Repr

/-- `types.DataAvailabilityHeader`: row and column roots of the erasure
coded data square, plus the cached hash (`none` models the Go `nil` slice,
which forces recomputation). -/
structure DAHeader where
  rowsRoots : List Bytes
  columnRoots : List Bytes
  hashCache : Option Bytes
deriving DecidableEq, Repr

/-- `types.Block`: header, data, data availability header, last commit. -/
structure Block where
  header : Header
  data : BlockData
  dah : DAHeader
  lastCommit : Option Commit
deriving DecidableEq, Repr

/-! ### Entity codecs

`Block.MakePartSet` marshals the block via protobuf; the spec treats the
codec as external (section 4.B), so the concrete stand-in below is any
deterministic self-delimiting encoding with a total decoder inverse. -/

/-- Encode a commit. -/
def encCommit (c : Commit) : List Nat :=
  encInt c.height ++ encInt c.round ++ encListOf encBytes c.sigs

/-- Decode a commit. -/
def decCommit (l : List Nat) : Option (Commit × List Nat) :=
  match decInt l with
  | none => none
  | some (h, l1) =>
    match decInt l1 with
    | none => none
    | some (rd, l2) =>
      match decListOf decBytes l2 with
      | none => none
      | some (sg, l3) => some (⟨h, rd, sg⟩, l3)

/-- Encode a header. -/
def encHeader (h : Header) : List Nat :=
  encInt h.height ++ encOpt encBytes h.lastCommitHash ++ encOpt encBytes h.dataHash ++
    encNat h.numOriginalDataShares ++ encBytes h.validatorsHash ++
    encOpt encBytes h.evidenceHash ++ encBytes h.proposerAddress

/-- Decode a header. -/
def decHeader (l : List Nat) : Option (Header × List Nat) :=
  match decInt l with
  | none => none
  | some (ht, l1) =>
    match decOpt decBytes l1 with
    | none => none
    | some (lch, l2) =>
      match decOpt decBytes l2 with
      | none => none
      | some (dh, l3) =>
        match decNat l3 with
        | none => none
        | some (nds, l4) =>
          match decBytes l4 with
          | none => none
          | some (vh, l5) =>
            match decOpt decBytes l5 with
            | none => none
            | some (eh, l6) =>
              match decBytes l6 with
              | none => none
              | some (pa, l7) => some (⟨ht, lch, dh, nds, vh, eh, pa⟩, l7)

/-- Encode block data. -/
def encData (d : BlockData) : List Nat :=
  encListOf encBytes d.txs ++ encListOf encBytes d.evidence

/-- Decode block data. -/
def decData (l : List Nat) : Option (BlockData × List Nat) :=
  match decListOf decBytes l with
  | none => none
  | some (t, l1) =>
    match decListOf decBytes l1 with
    | none => none
    | some (e, l2) => some (⟨t, e⟩, l2)

/-- Encode a data availability header. -/
def encDAH (d : DAHeader) : List Nat :=
  encListOf encBytes d.rowsRoots ++ encListOf encBytes d.columnRoots ++
    encOpt encBytes d.hashCache

/-- Decode a data availability header. -/
def decDAH (l : List Nat) : Option (DAHeader × List Nat) :=
  match decListOf decBytes l with
  | none => none
  | some (rr, l1) =>
    match decListOf decBytes l1 with
    | none => none
    | some (cr, l2) =>
      match decOpt decBytes l2 with
      | none => none
      | some (hc, l3) => some (⟨rr, cr, hc⟩, l3)

/-- Serialize a block (the stand-in for `proto.Marshal` of
`Block.ToProto`). -/
def blockEncode (b : Block) : Bytes :=
  encHeader b.header ++ encData b.data ++ encDAH b.dah ++ encOpt encCommit b.lastCommit

/-- Decode a serialized block; the whole input must be consumed (the store
reassembles a block from exactly its parts). -/
def blockDecode (l : Bytes) : Option Block :=
  match decHeader l with
  | none => none
  | some (h, l1) =>
    match decData l1 with
    | none => none
    | some (d, l2) =>
      match decDAH l2 with
      | none => none
      | some (a, l3) =>
        match decOpt decCommit l3 with
        | none => none
        | some (c, l4) => if l4 = [] then some ⟨h, d, a, c⟩ else none

/-! ## Hashing (`Block.Hash`, `Block.fillHeader` from `types/block.go`)

Modelled from the spec: `crypto/merkle.HashFromByteSlices` and the
erasure-coded share computation are external collaborators (spec section 1,
out of scope); they are modelled as concrete deterministic stand-ins.  The
control flow of `Block.Hash`, `Block.fillHeader`,
`Block.fillDataAvailabilityHeader`, `DataAvailabilityHeader.Hash`,
`Commit.Hash` and `Header.Hash` is embedded from the source. -/

/-- Stand-in for `merkle.HashFromByteSlices`: a tagged deterministic digest,
never empty. -/
def merkleHash (bs : List Bytes) : Bytes :=
  7 :: bs.length :: bs.flatMap encBytes

/-- `Commit.Hash`: `nil` receiver hashes to `nil`; otherwise the merkle root
of the marshalled signatures (`types/block.go`, `Commit.Hash`). -/
def commitHash : Option Commit → Option Bytes
  | none => none
  | some c => some (merkleHash c.sigs)

/-- `DataAvailabilityHeader.Hash` (`types/block.go` lines 102-123): return
the cache when it is a non-empty byte string, otherwise the merkle root of
the row roots followed by the column roots. -/
def DAHeader.hashOf (d : DAHeader) : Bytes :=
  match d.hashCache with
  | some h => if h ≠ [] then h else merkleHash (d.rowsRoots ++ d.columnRoots)
  | none => merkleHash (d.rowsRoots ++ d.columnRoots)

/-- Modelled from the spec: the erasure-coded share split of
`Block.fillDataAvailabilityHeader` (rsmt2d, nmt) is out of scope; the stand-in
derives one row root and one column root deterministically from the data and
reports the number of data shares. -/
def computeShares (d : BlockData) : List Bytes × Nat :=
  (d.txs ++ d.evidence, (d.txs ++ d.evidence).length)

/-- `Block.fillDataAvailabilityHeader`: recompute the availability header
from the data, cache its hash, and set `DataHash` and
`NumOriginalDataShares` (`types/block.go` lines 227-269). -/
def Block.fillDAH (b : Block) : Block :=
  let shares := (computeShares b.data).1
  let root := merkleHash shares
  let dah : DAHeader := ⟨[root], [root], none⟩
  let dh := dah.hashOf
  { b with
    dah := { dah with hashCache := some dh }
    header := { b.header with
      dataHash := some dh
      numOriginalDataShares := (computeShares b.data).2 } }

/-- `EvidenceData.Hash`: merkle root of the marshalled evidence
(`types/block.go` line 1505, caching elided). -/
def evidenceHash (ev : List Bytes) : Bytes := merkleHash ev

/-- `Block.fillHeader` (`types/block.go` lines 212-222): fill each derived
header field that is still `nil`. -/
def Block.fillHeader (b : Block) : Block :=
  let b1 :=
    if b.header.lastCommitHash = none then
      { b with header := { b.header with lastCommitHash := commitHash b.lastCommit } }
    else b
  let b2 :=
    if b1.header.dataHash = none ∨ b1.dah.hashCache = none then b1.fillDAH else b1
  if b2.header.evidenceHash = none then
    { b2 with header := { b2.header with evidenceHash := some (evidenceHash b2.data.evidence) } }
  else b2

/-- `Header.Hash` (`types/block.go` lines 635-681): `nil` when the
validators hash is missing, otherwise the merkle root of the encoded header
fields (the protobuf field encodings are the codec stand-ins). -/
def Header.hashOf (h : Header) : Option Bytes :=
  if h.validatorsHash.length = 0 then none
  else
    some (merkleHash [encInt h.height,
      encOpt encBytes h.lastCommitHash,
      encOpt encBytes h.dataHash,
      encNat h.numOriginalDataShares,
      encBytes h.validatorsHash,
      encOpt encBytes h.evidenceHash,
      encBytes h.proposerAddress])

/-- `Block.Hash` (`types/block.go` lines 271-285): `nil` for a `nil`
receiver or a `nil` `LastCommit`; otherwise fill the header and hash it. -/
def Block.hashOf : Option Block → Option Bytes
  | none => none
  | some b => if b.lastCommit = none then none else (b.fillHeader).header.hashOf

/-- The bytes the store keys the block-hash index with: `block.Hash()`,
where a `nil` hash is the empty key (Go treats a `nil` slice key as empty). -/
def blockHashBytes (b : Block) : Bytes := (Block.hashOf (some b)).getD []

/-! ## Part sets (`Block.MakePartSet` from `types/block.go` line 290,
`NewPartSetFromData` modelled from the spec: the part type and the split
into fixed-size chunks are external to the sources at hand) -/

/-- A block part: its index and its chunk of the serialized block. -/
structure Part where
  index : Nat
  bytes : Bytes
deriving DecidableEq, Repr

/-- A part set: declared total and the parts present.  The count of a part
set is the number of parts it holds. -/
structure PartSet where
  total : Nat
  parts : List Part
deriving DecidableEq, Repr

/-- Chunk splitting, structurally recursive on a fuel bound (any fuel at
least the length of the input gives the full split). -/
def chunksAux (sz : Nat) : Nat → Bytes → List Bytes
  | 0, _ => []
  | _ + 1, [] => []
  | fuel + 1, a :: as => ((a :: as).take sz) :: chunksAux sz fuel ((a :: as).drop sz)

/-- Split a byte string into chunks of `sz` bytes (the last chunk may be
shorter); `sz = 0` yields no chunks (the source contract demands
`partSize > 0`). -/
def chunksOf (sz : Nat) (l : Bytes) : List Bytes :=
  if sz = 0 then [] else chunksAux sz l.length l

/-- Number the chunks starting at `i`. -/
def toParts (i : Nat) : List Bytes → List Part
  | [] => []
  | c :: cs => ⟨i, c⟩ :: toParts (i + 1) cs

/-- `Block.MakePartSet` (`types/block.go` lines 290-306): marshal the block
and split the bytes into `partSize`-sized parts. -/
def Block.makePartSet (b : Block) (partSize : Nat) : PartSet :=
  let bz := blockEncode b
  let cs := chunksOf partSize bz
  ⟨cs.length, toParts 0 cs⟩

/-! ## The block store

Modelled from the spec: the store implementation file is not among the
sources at hand (only its test suite is), so the key codec (section 4.A),
the state record (4.C), the writer (4.D), the reader (4.E), the pruner
(4.F) and the projection (4.G) are modelled from the spec, constrained to
the behaviour the test suite asserts.  The ordered key-value engine is a
total function from keys to optional values; a batch of writes is function
update composition (the batch is atomic by construction, so the crash
granularity the spec discusses does not arise in this functional model). -/

/-- The five disjoint keyspaces of the store plus the state record key
(spec section 4.A): `H(h)`, `P(h, i)`, `C(h)`, `SC(h)`, `BH(hash)`, `BSS`.
Disjointness of the keyspaces is constructor disjointness. -/
inductive RecKey where
  | metaK (h : Int)
  | partK (h : Int) (i : Nat)
  | commitK (h : Int)
  | seenCommitK (h : Int)
  | blockHashK (hash : Bytes)
  | stateK
deriving DecidableEq, Repr

/-- The persisted `(base, height)` envelope (`tmstore.BlockStoreState`). -/
structure BlockStoreState where
  base : Int
  height : Int
deriving DecidableEq, Repr

/-- Block metadata (`types.BlockMeta`, spec section 3): block hash, header,
total-parts count and byte size. -/
structure BlockMeta where
  blockHash : Bytes
  header : Header
  total : Nat
  byteSize : Nat
deriving DecidableEq, Repr

/-- A persisted value.  The spec's record codec (section 4.B) is an external
deterministic encoder/decoder per entity kind; it is modelled by this sum:
encoding is constructor injection and a decode of kind `k` succeeds exactly
on the matching constructor.  `raw` holds opaque bytes that decode as no
entity (the corrupt values the tests plant), except that the empty raw
value at the state key reads as the empty state. -/
inductive RecVal where
  | vMeta (m : BlockMeta)
  | vPart (p : Part)
  | vCommit (c : Commit)
  | vHeight (h : Int)
  | vState (s : BlockStoreState)
  | raw (bs : Bytes)
deriving DecidableEq, Repr

/-- The engine: a point-readable key-value map. -/
def KVStore : Type := RecKey → Option RecVal

/-- Point read. -/
def KVStore.get (db : KVStore) (k : RecKey) : Option RecVal := db k

/-- Synchronous put. -/
def KVStore.set (db : KVStore) (k : RecKey) (v : RecVal) : KVStore :=
  fun k2 => if k2 = k then some v else db k2

/-- Synchronous delete. -/
def KVStore.del (db : KVStore) (k : RecKey) : KVStore :=
  fun k2 => if k2 = k then none else db k2

/-- The empty engine. -/
def KVStore.empty : KVStore := fun _ => none

/-- A store failure: `fatal` models a Go panic (corruption, contract
violation); `callerErr` models an ordinary returned error (prune
precondition violations).  The message carries the documented substring. -/
inductive StoreError where
  | fatal (msg : String)
  | callerErr (msg : String)
deriving DecidableEq, Repr

/-- The block store: the engine handle plus the in-memory `(base, height)`
projection (spec section 4.G; the mutex disappears in the functional
model). -/
structure BlockStore where
  db : KVStore
  base : Int
  height : Int

/-- A fresh store over an empty engine. -/
def BlockStore.mk0 : BlockStore := ⟨KVStore.empty, 0, 0⟩

/-- `Size() = max(0, Height - Base + 1)` for a non-empty store and `0` for
an empty one.  (The test suite requires a fresh store to report size `0`
(`TestPruneBlocks`), so the spec formula applies only to non-empty
stores.) -/
def BlockStore.size (bs : BlockStore) : Int :=
  if bs.height = 0 then 0 else bs.height - bs.base + 1

/-- `LoadBlockStoreState` (spec section 4.C): absent or empty bytes read as
`(0, 0)`; a decode failure is fatal; a decoded state with `base == 0` and
`height > 0` is normalized to `base := 1`. -/
def loadBlockStoreState (db : KVStore) : Except StoreError BlockStoreState :=
  match db.get RecKey.stateK with
  | none => Except.ok ⟨0, 0⟩
  | some (RecVal.raw []) => Except.ok ⟨0, 0⟩
  | some (RecVal.vState s) =>
      if s.base = 0 ∧ 0 < s.height then Except.ok ⟨1, s.height⟩ else Except.ok s
  | some _ => Except.error (StoreError.fatal "unmarshal bytes")

/-- `SaveBlockStoreState` (spec section 4.C): synchronous put of the encoded
state under the state key. -/
def saveBlockStoreState (s : BlockStoreState) (db : KVStore) : KVStore :=
  db.set RecKey.stateK (RecVal.vState s)

/-- `LoadBlockMeta`: absent is the sentinel, a value of another kind is a
fatal unmarshal failure (test substring `unmarshal to tmproto.BlockMeta`). -/
def BlockStore.loadBlockMeta (bs : BlockStore) (h : Int) : Except StoreError (Option BlockMeta) :=
  match bs.db.get (RecKey.metaK h) with
  | none => Except.ok none
  | some (RecVal.vMeta m) => Except.ok (some m)
  | some _ => Except.error (StoreError.fatal "unmarshal to tmproto.BlockMeta")

/-- `LoadBlockPart` (test substring `unmarshal to tmproto.Part failed`). -/
def BlockStore.loadBlockPart (bs : BlockStore) (h : Int) (i : Nat) :
    Except StoreError (Option Part) :=
  match bs.db.get (RecKey.partK h i) with
  | none => Except.ok none
  | some (RecVal.vPart p) => Except.ok (some p)
  | some _ => Except.error (StoreError.fatal "unmarshal to tmproto.Part failed")

/-- `LoadBlockCommit` (test substring `error reading block commit`). -/
def BlockStore.loadBlockCommit (bs : BlockStore) (h : Int) :
    Except StoreError (Option Commit) :=
  match bs.db.get (RecKey.commitK h) with
  | none => Except.ok none
  | some (RecVal.vCommit c) => Except.ok (some c)
  | some _ => Except.error (StoreError.fatal "error reading block commit")

/-- `LoadSeenCommit` (test substring `error reading block seen commit`). -/
def BlockStore.loadSeenCommit (bs : BlockStore) (h : Int) :
    Except StoreError (Option Commit) :=
  match bs.db.get (RecKey.seenCommitK h) with
  | none => Except.ok none
  | some (RecVal.vCommit c) => Except.ok (some c)
  | some _ => Except.error (StoreError.fatal "error reading block seen commit")

/-- Read the byte payloads of parts `0 .. n-1` of height `h` (spec section
4.E): a missing part under an existing meta is a fatal inconsistency. -/
def BlockStore.partBytes (bs : BlockStore) (h : Int) : Nat → Except StoreError (List Bytes)
  | 0 => Except.ok []
  | n + 1 =>
    match bs.partBytes h n with
    | Except.error e => Except.error e
    | Except.ok acc =>
      match bs.loadBlockPart h n with
      | Except.error e => Except.error e
      | Except.ok none => Except.error (StoreError.fatal "missing block part")
      | Except.ok (some p) => Except.ok (acc ++ [p.bytes])

/-- `LoadBlock` (spec section 4.E): read the meta; absent means absent;
otherwise read all parts, concatenate their bytes and decode the block; a
decode failure is fatal. -/
def BlockStore.loadBlock (bs : BlockStore) (h : Int) : Except StoreError (Option Block) :=
  match bs.loadBlockMeta h with
  | Except.error e => Except.error e
  | Except.ok none => Except.ok none
  | Except.ok (some m) =>
    match bs.partBytes h m.total with
    | Except.error e => Except.error e
    | Except.ok bufs =>
      match blockDecode bufs.flatten with
      | some b => Except.ok (some b)
      | none => Except.error (StoreError.fatal "error reading block")

/-- `LoadBlockByHash` (spec section 4.E): read the block-hash index; absent
means absent; otherwise decode the height and delegate to `LoadBlock`. -/
def BlockStore.loadBlockByHash (bs : BlockStore) (hash : Bytes) :
    Except StoreError (Option Block) :=
  match bs.db.get (RecKey.blockHashK hash) with
  | none => Except.ok none
  | some (RecVal.vHeight h) => bs.loadBlock h
  | some _ => Except.error (StoreError.fatal "unmarshal bytes")

/-- A part set is complete when it declares a positive total and holds
exactly that many parts (spec section 4.D). -/
def PartSet.isComplete (ps : PartSet) : Prop :=
  ps.total ≠ 0 ∧ ps.parts.length = ps.total

instance (ps : PartSet) : Decidable ps.isComplete := by
  unfold PartSet.isComplete; infer_instance

/-- Write every part of the set under its part key. -/
def saveParts (db : KVStore) (h : Int) (ps : List Part) : KVStore :=
  ps.foldl (fun d p => d.set (RecKey.partK h p.index) (RecVal.vPart p)) db

/-- `BlockMeta` construction from a block and its part set (spec section
4.D step 1: hash, header, part total, byte size). -/
def mkBlockMeta (b : Block) (ps : PartSet) : BlockMeta :=
  ⟨blockHashBytes b, b.header, ps.total, (blockEncode b).length⟩

/-- `SaveBlock` (spec section 4.D).  Preconditions, fatal on violation with
the documented substrings: the block is non-nil; the part set is complete;
the height is `height + 1` unless the store is empty, in which case any
positive height is accepted.  (The test suite saves seen commits whose
height differs from the block height, so no seen-commit height check is
modelled.)  On success the batch writes parts, meta, the hash index, the
previous-height commit (skipped at height 1, spec step 6) and the seen
commit; then the projection advances (`height := h`; `base := h` when it
was `0`) and the state record is persisted. -/
def BlockStore.saveBlock (bs : BlockStore) (block : Option Block) (ps : PartSet)
    (seenCommit : Commit) : Except StoreError BlockStore :=
  match block with
  | none => Except.error (StoreError.fatal "only save a non-nil block")
  | some b =>
    let h := b.header.height
    if ¬ ps.isComplete then Except.error (StoreError.fatal "only save complete block")
    else if ¬ (h = bs.height + 1 ∨ (bs.height = 0 ∧ 0 < h)) then
      Except.error (StoreError.fatal "cannot save block at unexpected height")
    else
      let db1 := saveParts bs.db h ps.parts
      let db2 := db1.set (RecKey.metaK h) (RecVal.vMeta (mkBlockMeta b ps))
      let db3 := db2.set (RecKey.blockHashK (blockHashBytes b)) (RecVal.vHeight h)
      let db4 :=
        if h = 1 then db3
        else db3.set (RecKey.commitK (h - 1))
          (RecVal.vCommit (b.lastCommit.getD ⟨0, 0, []⟩))
      let db5 := db4.set (RecKey.seenCommitK h) (RecVal.vCommit seenCommit)
      let newBase := if bs.base = 0 then h else bs.base
      let db6 := saveBlockStoreState ⟨newBase, h⟩ db5
      Except.ok ⟨db6, newBase, h⟩

/-- Delete part keys `0 .. n-1` at height `h`. -/
def delParts (db : KVStore) (h : Int) (n : Nat) : KVStore :=
  (List.range n).foldl (fun d i => d.del (RecKey.partK h i)) db

/-- Prune one height (spec section 4.F step 2): read its meta to learn the
hash and the part total — an absent or corrupt meta is fatal corruption —
then delete the hash index, the meta, the commit, the seen commit and
every part. -/
def pruneOne (db : KVStore) (h : Int) : Except StoreError KVStore :=
  match db.get (RecKey.metaK h) with
  | some (RecVal.vMeta m) =>
    let d1 := db.del (RecKey.blockHashK m.blockHash)
    let d2 := d1.del (RecKey.metaK h)
    let d3 := d2.del (RecKey.commitK h)
    let d4 := d3.del (RecKey.seenCommitK h)
    Except.ok (delParts d4 h m.total)
  | some _ => Except.error (StoreError.fatal "unmarshal to tmproto.BlockMeta")
  | none => Except.error (StoreError.fatal "missing block meta while pruning")

/-- Prune the listed heights in order. -/
def pruneHeights (db : KVStore) : List Int → Except StoreError KVStore
  | [] => Except.ok db
  | h :: hs =>
    match pruneOne db h with
    | Except.error e => Except.error e
    | Except.ok db1 => pruneHeights db1 hs

/-- The ascending heights `base, base+1, ..., target-1`. -/
def pruneSpan (base target : Int) : List Int :=
  (List.range (target - base).toNat).map fun (n : Nat) => base + (n : Int)

/-- `PruneBlocks(target)` (spec section 4.F).  Precondition violations are
non-fatal caller errors: a non-positive target, an empty store, a target
beyond the stored height, or a target below the base.  (The test suite
requires pruning *to* the current base to succeed as a no-op returning `0`,
so only `target < base` is rejected.)  On success every height in
`[base, target)` is deleted, the base advances to `target`, the state
record is persisted, and the number of pruned heights `target - base` is
returned. -/
def BlockStore.pruneBlocks (bs : BlockStore) (target : Int) :
    Except StoreError (Int × BlockStore) :=
  if target ≤ 0 then Except.error (StoreError.callerErr "height must be greater than 0")
  else if bs.height = 0 then Except.error (StoreError.callerErr "cannot prune an empty store")
  else if bs.height < target then
    Except.error (StoreError.callerErr "cannot prune beyond the latest height")
  else if target < bs.base then
    Except.error (StoreError.callerErr "cannot prune below base")
  else
    match pruneHeights bs.db (pruneSpan bs.base target) with
    | Except.error e => Except.error e
    | Except.ok db1 =>
      let db2 := saveBlockStoreState ⟨target, bs.height⟩ db1
      Except.ok (target - bs.base, ⟨db2, target, bs.height⟩)

/-- Store used to witness claim C3: nothing at the meta key of height 10,
corrupt bytes at the seen-commit key of height 1 (the test plants
`bogus-seen-commit` there). -/
def c3Store : BlockStore :=
  ⟨KVStore.empty.set (RecKey.seenCommitK 1) (RecVal.raw [9, 9]), 1, 1⟩

/-- An incomplete part set: total 2 declared, no parts held (the
`incompletePartSet` of `TestBlockStoreSaveLoadBlock`). -/
def incompletePS : PartSet := ⟨2, []⟩

/-- A concrete header of height 1. -/
def hdr1 : Header := ⟨1, none, none, 0, [3], none, [4]⟩

/-- A concrete block at height 1 with a last commit. -/
def blk1 : Block := ⟨hdr1, ⟨[[5]], []⟩, ⟨[], [], none⟩, some ⟨0, 0, [[6]]⟩⟩

/-- A concrete seen commit (height 10, as the tests use). -/
def cmt10 : Commit := ⟨10, 0, [[7]]⟩

/-- A complete one-part part set for the concrete block. -/
def ps1 : PartSet := blk1.makePartSet 4

/-- A concrete block at height 5 (same shape as `blk1`). -/
def blk5 : Block := ⟨⟨5, none, none, 0, [3], none, [4]⟩, ⟨[[5]], []⟩, ⟨[], [], none⟩,
  some ⟨0, 0, [[6]]⟩⟩

/-- An abstract store operation: a save or a prune. -/
inductive StoreOp where
  | save (b : Option Block) (ps : PartSet) (sc : Commit)
  | prune (t : Int)

/-- Apply one operation; a failed operation leaves the store as it was
(a caller error returns, a fatal error aborts the process before any
further operation). -/
def BlockStore.applyOp (bs : BlockStore) : StoreOp → BlockStore
  | StoreOp.save b ps sc =>
    match bs.saveBlock b ps sc with
    | Except.ok bs2 => bs2
    | Except.error _ => bs
  | StoreOp.prune t =>
    match bs.pruneBlocks t with
    | Except.ok (_, bs2) => bs2
    | Except.error _ => bs

/-- Apply a sequence of operations to a store. -/
def applyOps (ops : List StoreOp) (bs : BlockStore) : BlockStore :=
  ops.foldl BlockStore.applyOp bs

/-- The monotone window invariant on the projection (spec section 3
invariant 2): an empty store has `base = 0`; a non-empty one has
`1 ≤ base ≤ height`. -/
def WindowInv (bs : BlockStore) : Prop :=
  (bs.height = 0 → bs.base = 0) ∧ (bs.height ≠ 0 → 1 ≤ bs.base ∧ bs.base ≤ bs.height)

/-! ## Claim C2 machinery: what pruning deletes -/

/-- The keys `PruneBlocks` deletes for height `h` whose meta is `m` (spec
section 4.F step 2). -/
def keysFor (h : Int) (m : BlockMeta) : List RecKey :=
  RecKey.blockHashK m.blockHash :: RecKey.metaK h :: RecKey.commitK h ::
    RecKey.seenCommitK h :: (List.range m.total).map (RecKey.partK h)

/-- The well-formed window of a store (spec section 3, invariants 1-3 as
far as the pruning contract needs them): a positive window `[base, height]`
whose heights hold a meta and a loadable block, no meta, commit or part
record below the base, and no part beyond its meta's declared total. -/
structure WF (bs : BlockStore) : Prop where
  base_pos : 0 < bs.base
  base_le : bs.base ≤ bs.height
  metas : ∀ h : Int, bs.base ≤ h → h ≤ bs.height →
    ∃ m, bs.db.get (RecKey.metaK h) = some (RecVal.vMeta m)
  loadable : ∀ h : Int, bs.base ≤ h → h ≤ bs.height →
    ∃ b, bs.loadBlock h = Except.ok (some b)
  below_meta : ∀ h : Int, h < bs.base → bs.db.get (RecKey.metaK h) = none
  below_commit : ∀ h : Int, h < bs.base → bs.db.get (RecKey.commitK h) = none
  below_part : ∀ (h : Int) (i : Nat), h < bs.base → bs.db.get (RecKey.partK h i) = none
  part_dom : ∀ (h : Int) (i : Nat) (m : BlockMeta),
    bs.db.get (RecKey.metaK h) = some (RecVal.vMeta m) → m.total ≤ i →
    bs.db.get (RecKey.partK h i) = none

/-- Meta record of the claim C2 witness store at height 1. -/
def c2m1 : BlockMeta := ⟨[1], hdr1, 1, 0⟩

/-- Meta record of the claim C2 witness store at height 2. -/
def c2m2 : BlockMeta := ⟨[2], hdr1, 1, 0⟩

/-- Concrete engine for the claim C2 witness: heights 1 and 2, one part
each holding a whole serialized block. -/
def c2db : KVStore :=
  (((KVStore.empty.set (RecKey.metaK 1) (RecVal.vMeta c2m1)).set
    (RecKey.partK 1 0) (RecVal.vPart ⟨0, blockEncode blk1⟩)).set
    (RecKey.metaK 2) (RecVal.vMeta c2m2)).set
    (RecKey.partK 2 0) (RecVal.vPart ⟨0, blockEncode blk1⟩)

/-- Concrete store for the claim C2 witness: window `[1, 2]`. -/
def c2bs : BlockStore := ⟨c2db, 1, 2⟩

theorem decNat_enc (n : Nat) (r : List Nat) : decNat (encNat n ++ r) = some (n, r) := rfl

theorem decInt_enc (i : Int) (r : List Nat) : decInt (encInt i ++ r) = some (i, r) := by
  cases i <;> rfl

theorem decBytes_enc (b : Bytes) (r : List Nat) : decBytes (encBytes b ++ r) = some (b, r) := by
  simp [encBytes, decBytes, List.take_left, List.drop_left]

theorem decOpt_enc (dec : List Nat → Option (α × List Nat)) (enc : α → List Nat)
    (h : ∀ a r, dec (enc a ++ r) = some (a, r)) (o : Option α) (r : List Nat) :
    decOpt dec (encOpt enc o ++ r) = some (o, r) := by
  cases o with
  | none => rfl
  | some a => simp [encOpt, decOpt, h a r]

theorem decCount_enc (dec : List Nat → Option (α × List Nat)) (enc : α → List Nat)
    (h : ∀ a r, dec (enc a ++ r) = some (a, r)) (l : List α) (r : List Nat) :
    decCount dec l.length (l.flatMap enc ++ r) = some (l, r) := by
  induction l with
  | nil => rfl
  | cons a as ih =>
    simp only [List.length_cons, List.flatMap_cons, List.append_assoc, decCount,
      h a (as.flatMap enc ++ r), ih]

theorem decListOf_enc (dec : List Nat → Option (α × List Nat)) (enc : α → List Nat)
    (h : ∀ a r, dec (enc a ++ r) = some (a, r)) (l : List α) (r : List Nat) :
    decListOf dec (encListOf enc l ++ r) = some (l, r) := by
  simp [encListOf, decListOf, decCount_enc dec enc h l r]

theorem decCommit_enc (c : Commit) (r : List Nat) : decCommit (encCommit c ++ r) = some (c, r) := by
  simp [encCommit, decCommit, decInt_enc, decListOf_enc decBytes encBytes decBytes_enc]

theorem decHeader_enc (h : Header) (r : List Nat) : decHeader (encHeader h ++ r) = some (h, r) := by
  simp [encHeader, decHeader, decInt_enc, decNat_enc,
    decOpt_enc decBytes encBytes decBytes_enc, decBytes_enc, encNat, decNat]

theorem decData_enc (d : BlockData) (r : List Nat) : decData (encData d ++ r) = some (d, r) := by
  simp [encData, decData, decListOf_enc decBytes encBytes decBytes_enc]

theorem decDAH_enc (d : DAHeader) (r : List Nat) : decDAH (encDAH d ++ r) = some (d, r) := by
  simp [encDAH, decDAH, decListOf_enc decBytes encBytes decBytes_enc,
    decOpt_enc decBytes encBytes decBytes_enc]

/-- Round trip: decoding a serialized block yields the block back
(spec section 8, encode-then-decode law). -/
theorem blockDecode_encode (b : Block) : blockDecode (blockEncode b) = some b := by
  have h1 : blockEncode b =
      encHeader b.header ++ (encData b.data ++ (encDAH b.dah ++
        (encOpt encCommit b.lastCommit ++ []))) := by
    simp [blockEncode]
  rw [blockDecode, h1]
  simp only [decHeader_enc, decData_enc, decDAH_enc,
    decOpt_enc decCommit encCommit decCommit_enc, if_pos rfl, if_true]

/-- A serialized block is never empty. -/
theorem blockEncode_ne_nil (b : Block) : blockEncode b ≠ [] := by
  unfold blockEncode encHeader
  cases b.header.height <;> simp [encInt]

theorem merkleHash_ne_nil (bs : List Bytes) : merkleHash bs ≠ [] := by
  simp [merkleHash]

theorem chunksAux_join (sz : Nat) (hsz : sz ≠ 0) :
    ∀ (fuel : Nat) (l : Bytes), l.length ≤ fuel → (chunksAux sz fuel l).flatten = l := by
  intro fuel
  induction fuel with
  | zero =>
    intro l hl
    rw [List.length_eq_zero.mp (Nat.le_zero.mp hl)]
    rfl
  | succ fuel ih =>
    intro l hl
    cases l with
    | nil => rfl
    | cons a as =>
      have hdrop : ((a :: as).drop sz).length ≤ fuel := by
        simp only [List.length_drop, List.length_cons] at hl ⊢
        omega
      simp only [chunksAux, List.flatten_cons, ih ((a :: as).drop sz) hdrop,
        List.take_append_drop]

/-- Joining the chunks gives back the original bytes. -/
theorem chunksOf_join (sz : Nat) (hsz : sz ≠ 0) (l : Bytes) :
    (chunksOf sz l).flatten = l := by
  rw [chunksOf, if_neg hsz]
  exact chunksAux_join sz hsz l.length l le_rfl

theorem chunksOf_ne_nil (sz : Nat) (hsz : sz ≠ 0) (l : Bytes) (hl : l ≠ []) :
    chunksOf sz l ≠ [] := by
  rw [chunksOf, if_neg hsz]
  cases l with
  | nil => exact absurd rfl hl
  | cons a as => simp [chunksAux]

theorem toParts_length (i : Nat) (cs : List Bytes) : (toParts i cs).length = cs.length := by
  induction cs generalizing i with
  | nil => rfl
  | cons c cs ih => simp [toParts, ih]

theorem toParts_index_ge (i : Nat) (cs : List Bytes) :
    ∀ p ∈ toParts i cs, i ≤ p.index := by
  induction cs generalizing i with
  | nil => simp [toParts]
  | cons c cs ih =>
    intro p hp
    simp only [toParts, List.mem_cons] at hp
    rcases hp with h | h
    · simp [h]
    · have := ih (i + 1) p h; omega

/-! ## Engine lemmas -/

theorem KVStore.get_set_same (db : KVStore) (k : RecKey) (v : RecVal) :
    (db.set k v).get k = some v := by
  simp [KVStore.get, KVStore.set]

theorem KVStore.get_set_other (db : KVStore) (k k2 : RecKey) (v : RecVal) (h : k2 ≠ k) :
    (db.set k v).get k2 = db.get k2 := by
  simp [KVStore.get, KVStore.set, h]

theorem KVStore.get_del_same (db : KVStore) (k : RecKey) :
    (db.del k).get k = none := by
  simp [KVStore.get, KVStore.del]

theorem KVStore.get_del_other (db : KVStore) (k k2 : RecKey) (h : k2 ≠ k) :
    (db.del k).get k2 = db.get k2 := by
  simp [KVStore.get, KVStore.del, h]

/-! ## Claim C3: absence versus corruption on every point load -/

/-- Claim C3: for each point load (meta, part, commit, seen commit) and
every height, a missing key yields the absent sentinel and never an error;
a key holding a value of the wrong kind is a fatal error carrying the
documented substring; a key holding a value of the right kind loads it.
Absence is never reported as corruption and corruption never as absence. -/
theorem load_absence_vs_corruption (bs : BlockStore) (h : Int) (i : Nat) :
    (bs.db.get (RecKey.metaK h) = none → bs.loadBlockMeta h = Except.ok none) ∧
    (∀ v, bs.db.get (RecKey.metaK h) = some v → (∀ m, v ≠ RecVal.vMeta m) →
      bs.loadBlockMeta h = Except.error (StoreError.fatal "unmarshal to tmproto.BlockMeta")) ∧
    (∀ m, bs.db.get (RecKey.metaK h) = some (RecVal.vMeta m) →
      bs.loadBlockMeta h = Except.ok (some m)) ∧
    (bs.db.get (RecKey.partK h i) = none → bs.loadBlockPart h i = Except.ok none) ∧
    (∀ v, bs.db.get (RecKey.partK h i) = some v → (∀ p, v ≠ RecVal.vPart p) →
      bs.loadBlockPart h i = Except.error (StoreError.fatal "unmarshal to tmproto.Part failed")) ∧
    (∀ p, bs.db.get (RecKey.partK h i) = some (RecVal.vPart p) →
      bs.loadBlockPart h i = Except.ok (some p)) ∧
    (bs.db.get (RecKey.commitK h) = none → bs.loadBlockCommit h = Except.ok none) ∧
    (∀ v, bs.db.get (RecKey.commitK h) = some v → (∀ c, v ≠ RecVal.vCommit c) →
      bs.loadBlockCommit h = Except.error (StoreError.fatal "error reading block commit")) ∧
    (∀ c, bs.db.get (RecKey.commitK h) = some (RecVal.vCommit c) →
      bs.loadBlockCommit h = Except.ok (some c)) ∧
    (bs.db.get (RecKey.seenCommitK h) = none → bs.loadSeenCommit h = Except.ok none) ∧
    (∀ v, bs.db.get (RecKey.seenCommitK h) = some v → (∀ c, v ≠ RecVal.vCommit c) →
      bs.loadSeenCommit h = Except.error (StoreError.fatal "error reading block seen commit")) ∧
    (∀ c, bs.db.get (RecKey.seenCommitK h) = some (RecVal.vCommit c) →
      bs.loadSeenCommit h = Except.ok (some c)) := by
  refine ⟨?_, ?_, ?_, ?_, ?_, ?_, ?_, ?_, ?_, ?_, ?_, ?_⟩
  · intro hg; simp [BlockStore.loadBlockMeta, hg]
  · intro v hg hv; cases v <;> simp_all [BlockStore.loadBlockMeta]
  · intro m hg; simp [BlockStore.loadBlockMeta, hg]
  · intro hg; simp [BlockStore.loadBlockPart, hg]
  · intro v hg hv; cases v <;> simp_all [BlockStore.loadBlockPart]
  · intro p hg; simp [BlockStore.loadBlockPart, hg]
  · intro hg; simp [BlockStore.loadBlockCommit, hg]
  · intro v hg hv; cases v <;> simp_all [BlockStore.loadBlockCommit]
  · intro c hg; simp [BlockStore.loadBlockCommit, hg]
  · intro hg; simp [BlockStore.loadSeenCommit, hg]
  · intro v hg hv; cases v <;> simp_all [BlockStore.loadSeenCommit]
  · intro c hg; simp [BlockStore.loadSeenCommit, hg]

/-- Witness for claim C3 at a concrete store: an absent meta loads as the
sentinel and the corrupt seen commit is fatal with the documented
substring. -/
theorem load_absence_vs_corruption_witness :
    c3Store.loadBlockMeta 10 = Except.ok none ∧
    c3Store.loadSeenCommit 1 =
      Except.error (StoreError.fatal "error reading block seen commit") := by
  refine ⟨(load_absence_vs_corruption c3Store 10 0).1 rfl, ?_⟩
  exact (load_absence_vs_corruption c3Store 1 0).2.2.2.2.2.2.2.2.2.2.1
    (RecVal.raw [9, 9]) rfl (by intro c; simp)

/-! ## Claims C7 and C8: the state record round trip and the legacy
normalization -/

/-- Claim C7 counterexample: the round trip fails for the state
`(base = 0, height = 1000)` — saving it and loading does not return it but
its normalization `(1, 1000)` (the `no base` case of
`TestLoadBlockStoreState`). -/
theorem blockStoreState_roundtrip_cex :
    loadBlockStoreState (saveBlockStoreState ⟨0, 1000⟩ KVStore.empty) =
      Except.ok ⟨1, 1000⟩ ∧
    (⟨1, 1000⟩ : BlockStoreState) ≠ ⟨0, 1000⟩ := by
  constructor
  · rfl
  · simp

/-- Claim C7 (amended): `SaveBlockStoreState(s)` followed by
`LoadBlockStoreState()` returns `s` for every state `s` that is not subject
to the legacy normalization (that is, unless `s.base = 0` and
`s.height > 0`); and when the state key is absent or holds empty bytes,
`LoadBlockStoreState` returns `(0, 0)`. -/
theorem blockStoreState_roundtrip (db : KVStore) (s : BlockStoreState) :
    (¬(s.base = 0 ∧ 0 < s.height) →
      loadBlockStoreState (saveBlockStoreState s db) = Except.ok s) ∧
    (db.get RecKey.stateK = none → loadBlockStoreState db = Except.ok ⟨0, 0⟩) ∧
    (db.get RecKey.stateK = some (RecVal.raw []) →
      loadBlockStoreState db = Except.ok ⟨0, 0⟩) := by
  refine ⟨?_, ?_, ?_⟩
  · intro hn
    simp [loadBlockStoreState, saveBlockStoreState, KVStore.get_set_same, hn]
  · intro hg; simp [loadBlockStoreState, hg]
  · intro hg; simp [loadBlockStoreState, hg]

/-- Witness for claim C7 at concrete inputs: the state `(100, 1000)` round
trips, and the empty engine loads as `(0, 0)`. -/
theorem blockStoreState_roundtrip_witness :
    loadBlockStoreState (saveBlockStoreState ⟨100, 1000⟩ KVStore.empty) =
      Except.ok ⟨100, 1000⟩ ∧
    loadBlockStoreState KVStore.empty = Except.ok ⟨0, 0⟩ := by
  constructor
  · exact (blockStoreState_roundtrip KVStore.empty ⟨100, 1000⟩).1 (by simp)
  · exact (blockStoreState_roundtrip KVStore.empty ⟨100, 1000⟩).2.1 rfl

/-- Claim C8: loading a state persisted with `base = 0` and a positive
height yields `(1, height)` (legacy normalization), so the plain round trip
fails for exactly these states. -/
theorem blockStoreState_legacy_norm (db : KVStore) (h : Int) (hp : 0 < h) :
    loadBlockStoreState (saveBlockStoreState ⟨0, h⟩ db) = Except.ok ⟨1, h⟩ ∧
    (⟨1, h⟩ : BlockStoreState) ≠ ⟨0, h⟩ := by
  constructor
  · simp [loadBlockStoreState, saveBlockStoreState, KVStore.get_set_same, hp]
  · simp

/-- Witness for claim C8 at height 1000. -/
theorem blockStoreState_legacy_norm_witness :
    loadBlockStoreState (saveBlockStoreState ⟨0, 1000⟩ KVStore.empty) =
      Except.ok ⟨1, 1000⟩ ∧
    (⟨1, 1000⟩ : BlockStoreState) ≠ ⟨0, 1000⟩ :=
  blockStoreState_legacy_norm KVStore.empty 1000 (by decide)

/-! ## Claim C5: the prune precondition errors -/

theorem pruneOne_error_fatal (db : KVStore) (h : Int) (e : StoreError)
    (he : pruneOne db h = Except.error e) : ∃ m, e = StoreError.fatal m := by
  unfold pruneOne at he
  cases hg : db.get (RecKey.metaK h) with
  | none => rw [hg] at he; exact ⟨_, (Except.error.injEq _ _).mp he.symm⟩
  | some v => cases v <;> rw [hg] at he <;> simp at he <;> exact ⟨_, he.symm⟩

theorem pruneHeights_error_fatal (hs : List Int) (db : KVStore) (e : StoreError)
    (he : pruneHeights db hs = Except.error e) : ∃ m, e = StoreError.fatal m := by
  induction hs generalizing db with
  | nil => simp [pruneHeights] at he
  | cons h hs ih =>
    unfold pruneHeights at he
    cases h1 : pruneOne db h with
    | error e2 =>
      rw [h1] at he
      simp at he
      exact he ▸ pruneOne_error_fatal db h e2 h1
    | ok db1 => rw [h1] at he; exact ih db1 he

/-- Claim C5 counterexample: the claim demands an error whenever
`target ≤ base`, but pruning *to* the current base succeeds as a no-op
returning `0` (`TestPruneBlocks`: `PruneBlocks(1200)` twice).  Here a store
with `base = 2, height = 3` prunes to target `2 ≤ base` without error. -/
theorem pruneBlocks_callerErr_cex :
    (2 : Int) ≤ (⟨KVStore.empty, 2, 3⟩ : BlockStore).base ∧
    ∃ bs2, (⟨KVStore.empty, 2, 3⟩ : BlockStore).pruneBlocks 2 = Except.ok (0, bs2) := by
  exact ⟨by norm_num, ⟨_, rfl⟩⟩

/-- Claim C5 (amended): `PruneBlocks(target)` returns a non-fatal caller
error exactly when `target ≤ 0`, or the store is empty (`height = 0`), or
`target < base` (strictly below the window: pruning to the base itself is a
no-op), or `target > height`.  The functional model returns no store on an
error, so the store is left unchanged. -/
theorem pruneBlocks_callerErr_iff (bs : BlockStore) (t : Int) :
    (∃ msg, bs.pruneBlocks t = Except.error (StoreError.callerErr msg)) ↔
    (t ≤ 0 ∨ bs.height = 0 ∨ t < bs.base ∨ bs.height < t) := by
  constructor
  · rintro ⟨msg, hmsg⟩
    unfold BlockStore.pruneBlocks at hmsg
    split_ifs at hmsg with h1 h2 h3 h4
    · exact Or.inl h1
    · exact Or.inr (Or.inl h2)
    · exact Or.inr (Or.inr (Or.inr h3))
    · exact Or.inr (Or.inr (Or.inl h4))
    · cases h5 : pruneHeights bs.db (pruneSpan bs.base t) with
      | error e =>
        rw [h5] at hmsg
        simp at hmsg
        obtain ⟨m, hm⟩ := pruneHeights_error_fatal _ _ _ h5
        rw [hm] at hmsg
        exact absurd hmsg.symm (by simp)
      | ok db1 => rw [h5] at hmsg; simp at hmsg
  · intro hcond
    unfold BlockStore.pruneBlocks
    split_ifs with h1 h2 h3 h4
    · exact ⟨_, rfl⟩
    · exact ⟨_, rfl⟩
    · exact ⟨_, rfl⟩
    · exact ⟨_, rfl⟩
    · rcases hcond with h | h | h | h <;> omega

/-- Witness for claim C5 at concrete inputs: pruning an empty store errors
(both directions of the characterization applied at `target = 1`). -/
theorem pruneBlocks_callerErr_iff_witness :
    ∃ msg, BlockStore.mk0.pruneBlocks 1 = Except.error (StoreError.callerErr msg) :=
  (pruneBlocks_callerErr_iff BlockStore.mk0 1).mpr (Or.inr (Or.inl rfl))

/-! ## Claim C6: nil-block and incomplete-part-set saves are fatal -/

/-- Claim C6: saving a nil block is fatal with substring
`only save a non-nil block`; saving an incomplete part set (`total = 0` or
fewer parts than the declared total) is fatal with substring
`only save complete block`.  A fatal save returns no store, so no records
are written. -/
theorem saveBlock_nil_or_incomplete (bs : BlockStore) (b : Block) (ps : PartSet)
    (sc : Commit) :
    bs.saveBlock none ps sc = Except.error (StoreError.fatal "only save a non-nil block") ∧
    (¬ ps.isComplete →
      bs.saveBlock (some b) ps sc =
        Except.error (StoreError.fatal "only save complete block")) := by
  constructor
  · rfl
  · intro hic
    simp only [BlockStore.saveBlock]
    rw [if_pos hic]

/-- Witness for claim C6 at concrete inputs. -/
theorem saveBlock_nil_or_incomplete_witness :
    BlockStore.mk0.saveBlock none incompletePS cmt10 =
      Except.error (StoreError.fatal "only save a non-nil block") ∧
    BlockStore.mk0.saveBlock (some blk1) incompletePS cmt10 =
      Except.error (StoreError.fatal "only save complete block") :=
  ⟨(saveBlock_nil_or_incomplete BlockStore.mk0 blk1 incompletePS cmt10).1,
   (saveBlock_nil_or_incomplete BlockStore.mk0 blk1 incompletePS cmt10).2
     (by simp [incompletePS, PartSet.isComplete])⟩

/-! ## Claim C4: the height linkage precondition -/

/-- Claim C4: with a complete part set, a save at height `h` on a non-empty
store is fatal unless `h = height + 1`; on an empty store (`height = 0`,
hence `base = 0` by the window invariant) any positive `h` is accepted and
both base and height become `h`. -/
theorem saveBlock_height_linkage (bs : BlockStore) (b : Block) (ps : PartSet)
    (sc : Commit) (hc : ps.isComplete) :
    (bs.height ≠ 0 → b.header.height ≠ bs.height + 1 →
      bs.saveBlock (some b) ps sc =
        Except.error (StoreError.fatal "cannot save block at unexpected height")) ∧
    (bs.height = 0 → bs.base = 0 → 0 < b.header.height →
      ∃ bs2, bs.saveBlock (some b) ps sc = Except.ok bs2 ∧
        bs2.base = b.header.height ∧ bs2.height = b.header.height) := by
  constructor
  · intro h0 hne
    simp only [BlockStore.saveBlock]
    rw [if_neg (by simp [hc]), if_pos]
    rintro (h | ⟨h, _⟩)
    · exact hne h
    · exact h0 h
  · intro h0 hb hpos
    simp only [BlockStore.saveBlock]
    rw [if_neg (by simp [hc]), if_neg (by rw [h0]; simp [hpos])]
    exact ⟨_, rfl, by simp [hb], rfl⟩

/-- Witness for claim C4 at concrete inputs: saving height 5 on a store at
height 1 is fatal, and saving height 1 on the fresh store succeeds setting
`base = height = 1`. -/
theorem saveBlock_height_linkage_witness :
    (⟨KVStore.empty, 1, 1⟩ : BlockStore).saveBlock (some blk5) ps1 cmt10 =
      Except.error (StoreError.fatal "cannot save block at unexpected height") ∧
    ∃ bs2, BlockStore.mk0.saveBlock (some blk1) ps1 cmt10 = Except.ok bs2 ∧
      bs2.base = 1 ∧ bs2.height = 1 := by
  constructor
  · exact (saveBlock_height_linkage ⟨KVStore.empty, 1, 1⟩ blk5 ps1 cmt10
      (by decide)).1 (by norm_num) (by decide)
  · exact (saveBlock_height_linkage BlockStore.mk0 blk1 ps1 cmt10
      (by decide)).2 rfl rfl (by decide)

/-! ## Claim C9: the size formula over operation sequences -/

/-- A successful save accepted the height linkage and moved the projection
to the block height (base too when it was `0`). -/
theorem saveBlock_ok_state (bs : BlockStore) (b : Block) (ps : PartSet) (sc : Commit)
    (bs2 : BlockStore) (hok : bs.saveBlock (some b) ps sc = Except.ok bs2) :
    (b.header.height = bs.height + 1 ∨ (bs.height = 0 ∧ 0 < b.header.height)) ∧
    bs2.height = b.header.height ∧
    (bs.base = 0 → bs2.base = b.header.height) ∧
    (bs.base ≠ 0 → bs2.base = bs.base) := by
  simp only [BlockStore.saveBlock] at hok
  split_ifs at hok with h1 h2 h3 h4 <;> cases hok <;>
    refine ⟨h2, rfl, ?_, ?_⟩ <;> intro hb <;> simp_all

/-- A successful prune accepted the preconditions and moved the base to the
target, leaving the height. -/
theorem pruneBlocks_ok_state (bs : BlockStore) (t : Int) (n : Int) (bs2 : BlockStore)
    (hok : bs.pruneBlocks t = Except.ok (n, bs2)) :
    0 < t ∧ bs.height ≠ 0 ∧ t ≤ bs.height ∧ bs.base ≤ t ∧
    bs2.base = t ∧ bs2.height = bs.height ∧ n = t - bs.base := by
  unfold BlockStore.pruneBlocks at hok
  split_ifs at hok with h1 h2 h3 h4
  cases h5 : pruneHeights bs.db (pruneSpan bs.base t) with
  | error e => rw [h5] at hok; cases hok
  | ok db1 =>
    rw [h5] at hok
    simp only [Except.ok.injEq, Prod.mk.injEq] at hok
    obtain ⟨hn, hbs⟩ := hok
    subst hbs
    exact ⟨by omega, h2, by omega, by omega, rfl, rfl, hn.symm⟩

theorem applyOp_windowInv (bs : BlockStore) (op : StoreOp) (hinv : WindowInv bs) :
    WindowInv (bs.applyOp op) := by
  obtain ⟨hi1, hi2⟩ := hinv
  cases op with
  | save b ps sc =>
    simp only [BlockStore.applyOp]
    cases b with
    | none => exact ⟨hi1, hi2⟩
    | some blk =>
      cases hok : bs.saveBlock (some blk) ps sc with
      | error e => exact ⟨hi1, hi2⟩
      | ok bs2 =>
        obtain ⟨hlink, hh, hb0, hbn⟩ := saveBlock_ok_state bs blk ps sc bs2 hok
        constructor
        · intro h0
          rw [hh] at h0
          rcases hlink with h | ⟨h, hpos⟩
          · by_cases hz : bs.height = 0
            · omega
            · have := hi2 hz; omega
          · omega
        · intro h0
          rw [hh] at h0 ⊢
          by_cases hb : bs.base = 0
          · rw [hb0 hb]
            rcases hlink with h | ⟨h, hpos⟩
            · by_cases hz : bs.height = 0
              · omega
              · have := hi2 hz; omega
            · omega
          · rw [hbn hb]
            by_cases hz : bs.height = 0
            · exact absurd (hi1 hz) hb
            · have := hi2 hz
              rcases hlink with h | ⟨h, hpos⟩
              · omega
              · exact absurd h hz
  | prune t =>
    simp only [BlockStore.applyOp]
    cases hok : bs.pruneBlocks t with
    | error e => exact ⟨hi1, hi2⟩
    | ok p =>
      obtain ⟨n, bs2⟩ := p
      obtain ⟨ht, hne, hth, hbt, hb2, hh2, _⟩ := pruneBlocks_ok_state bs t n bs2 hok
      have := hi2 hne
      constructor
      · intro h0; rw [hh2] at h0; exact absurd h0 hne
      · intro _; rw [hb2, hh2]; omega

theorem applyOps_windowInv (ops : List StoreOp) (bs : BlockStore) (hinv : WindowInv bs) :
    WindowInv (applyOps ops bs) := by
  induction ops generalizing bs with
  | nil => exact hinv
  | cons op ops ih => exact ih (bs.applyOp op) (applyOp_windowInv bs op hinv)

/-- Claim C9 counterexample: a fresh store reports `Size = 0` while
`max(0, Height - Base + 1) = max(0, 1) = 1`, so the claimed formula fails
on the empty store the claim itself describes. -/
theorem size_formula_cex :
    BlockStore.mk0.size = 0 ∧
    max 0 (BlockStore.mk0.height - BlockStore.mk0.base + 1) = 1 ∧
    BlockStore.mk0.size ≠ max 0 (BlockStore.mk0.height - BlockStore.mk0.base + 1) := by
  refine ⟨rfl, ?_, ?_⟩ <;> norm_num [BlockStore.mk0, BlockStore.size]

/-- Claim C9 (amended): after every sequence of `SaveBlock` and
`PruneBlocks` operations from a fresh store, `Size() =
max(0, Height - Base + 1)` whenever the store is non-empty, and an empty
store (in particular a fresh one) reports `Base = Height = Size = 0`. -/
theorem size_formula (ops : List StoreOp) :
    ((applyOps ops BlockStore.mk0).height ≠ 0 →
      (applyOps ops BlockStore.mk0).size =
        max 0 ((applyOps ops BlockStore.mk0).height - (applyOps ops BlockStore.mk0).base + 1)) ∧
    ((applyOps ops BlockStore.mk0).height = 0 →
      (applyOps ops BlockStore.mk0).base = 0 ∧ (applyOps ops BlockStore.mk0).size = 0) := by
  obtain ⟨h1, h2⟩ := applyOps_windowInv ops BlockStore.mk0 ⟨fun _ => rfl, fun h => absurd rfl h⟩
  constructor
  · intro hne
    obtain ⟨hb1, hb2⟩ := h2 hne
    rw [BlockStore.size, if_neg hne, max_eq_right (by omega)]
  · intro h0
    exact ⟨h1 h0, by rw [BlockStore.size, if_pos h0]⟩

/-- Witness for claim C9 at the empty sequence: the fresh store reports
base and size `0`. -/
theorem size_formula_witness :
    (applyOps [] BlockStore.mk0).base = 0 ∧ (applyOps [] BlockStore.mk0).size = 0 :=
  (size_formula []).2 rfl

/-! ## Claim C1: save/load round trip -/

theorem saveParts_get_other (db : KVStore) (h : Int) (ps : List Part) (k : RecKey)
    (hk : ∀ p ∈ ps, RecKey.partK h p.index ≠ k) :
    (saveParts db h ps).get k = db.get k := by
  induction ps generalizing db with
  | nil => rfl
  | cons p ps ih =>
    have hstep : saveParts db h (p :: ps) =
        saveParts (db.set (RecKey.partK h p.index) (RecVal.vPart p)) h ps := rfl
    rw [hstep, ih _ (fun q hq => hk q (List.mem_cons_of_mem p hq)),
      KVStore.get_set_other _ _ _ _ (Ne.symm (hk p (List.mem_cons_self p ps)))]

theorem saveParts_get_at (db : KVStore) (h : Int) (cs : List Bytes) (i j : Nat)
    (hj : j < cs.length) :
    (saveParts db h (toParts i cs)).get (RecKey.partK h (i + j)) =
      some (RecVal.vPart ⟨i + j, cs.getD j []⟩) := by
  induction cs generalizing db i j with
  | nil => simp at hj
  | cons c cs ih =>
    have hstep : saveParts db h (toParts i (c :: cs)) =
        saveParts (db.set (RecKey.partK h i) (RecVal.vPart ⟨i, c⟩)) h (toParts (i + 1) cs) := rfl
    cases j with
    | zero =>
      simp only [Nat.add_zero, List.getD_cons_zero]
      rw [hstep, saveParts_get_other, KVStore.get_set_same]
      intro p hp
      have := toParts_index_ge (i + 1) cs p hp
      simp only [ne_eq, RecKey.partK.injEq, not_and]
      intro _
      omega
    | succ j2 =>
      have harith : i + (j2 + 1) = (i + 1) + j2 := by omega
      rw [harith, hstep, ih _ (i + 1) j2 (by simp only [List.length_cons] at hj; omega)]
      simp

theorem map_getD_range (l : List Bytes) :
    (List.range l.length).map (fun i => l.getD i []) = l := by
  induction l with
  | nil => rfl
  | cons a as ih =>
    rw [List.length_cons, List.range_succ_eq_map, List.map_cons, List.map_map]
    have h2 : ((fun i => (a :: as).getD i ([] : Bytes)) ∘ Nat.succ) =
        fun i => as.getD i [] := by
      funext i; rfl
    rw [h2, ih]
    rfl

theorem partBytes_eval (bs : BlockStore) (h : Int) (f : Nat → Bytes) :
    ∀ n, (∀ i, i < n → bs.db.get (RecKey.partK h i) = some (RecVal.vPart ⟨i, f i⟩)) →
      bs.partBytes h n = Except.ok ((List.range n).map f)
  | 0, _ => rfl
  | n + 1, hp => by
    have ih := partBytes_eval bs h f n (fun i hi => hp i (Nat.lt_succ_of_lt hi))
    simp only [BlockStore.partBytes, ih, BlockStore.loadBlockPart, hp n (Nat.lt_succ_self n),
      List.range_succ, List.map_append, List.map_cons, List.map_nil]

/-- Claim C1: a successful `SaveBlock(b, partSet, seenCommit)` — with
`partSet = b.MakePartSet(partSize)` as the source constructs it — is
followed by `LoadBlock(b.height)` returning a block that serializes exactly
as `b` does, and by `LoadBlockByHash(b.hash)` returning a block equal to
`b`. -/
theorem saveBlock_roundtrip (bs : BlockStore) (b : Block) (sz : Nat) (sc : Commit)
    (hsz : sz ≠ 0)
    (hlink : b.header.height = bs.height + 1 ∨ (bs.height = 0 ∧ 0 < b.header.height)) :
    ∃ bs2, bs.saveBlock (some b) (b.makePartSet sz) sc = Except.ok bs2 ∧
      bs2.loadBlock b.header.height = Except.ok (some b) ∧
      (∀ b2, bs2.loadBlock b.header.height = Except.ok (some b2) →
        blockEncode b2 = blockEncode b) ∧
      bs2.loadBlockByHash (blockHashBytes b) = Except.ok (some b) := by
  have hcomplete : (b.makePartSet sz).isComplete := by
    constructor
    · show (chunksOf sz (blockEncode b)).length ≠ 0
      simp only [ne_eq, List.length_eq_zero]
      exact chunksOf_ne_nil sz hsz _ (blockEncode_ne_nil b)
    · show (toParts 0 (chunksOf sz (blockEncode b))).length =
        (chunksOf sz (blockEncode b)).length
      exact toParts_length 0 _
  simp only [BlockStore.saveBlock]
  rw [if_neg (not_not_intro hcomplete), if_neg (not_not_intro hlink)]
  set hgt := b.header.height with hhgt
  set cs := chunksOf sz (blockEncode b) with hcs
  set meta := mkBlockMeta b (b.makePartSet sz) with hm
  set db1 := saveParts bs.db hgt (b.makePartSet sz).parts with hdb1
  set db2 := db1.set (RecKey.metaK hgt) (RecVal.vMeta meta) with hdb2
  set db3 := db2.set (RecKey.blockHashK (blockHashBytes b)) (RecVal.vHeight hgt) with hdb3
  set db4 := (if hgt = 1 then db3
    else db3.set (RecKey.commitK (hgt - 1))
      (RecVal.vCommit (b.lastCommit.getD ⟨0, 0, []⟩))) with hdb4
  set db5 := db4.set (RecKey.seenCommitK hgt) (RecVal.vCommit sc) with hdb5
  set nb := (if bs.base = 0 then hgt else bs.base) with hnb
  set db6 := saveBlockStoreState ⟨nb, hgt⟩ db5 with hdb6
  have h4frame : ∀ k : RecKey, (∀ j : Int, k ≠ RecKey.commitK j) → db4.get k = db3.get k := by
    intro k hkc
    rw [hdb4]
    by_cases hone : hgt = 1
    · rw [if_pos hone]
    · rw [if_neg hone, KVStore.get_set_other _ _ _ _ (hkc _)]
  have hget_meta : db6.get (RecKey.metaK hgt) = some (RecVal.vMeta meta) := by
    rw [hdb6]
    simp only [saveBlockStoreState]
    rw [KVStore.get_set_other _ _ _ _ (by simp), hdb5,
      KVStore.get_set_other _ _ _ _ (by simp),
      h4frame _ (by intro j; simp), hdb3,
      KVStore.get_set_other _ _ _ _ (by simp), hdb2, KVStore.get_set_same]
  have hget_part : ∀ i, i < cs.length →
      db6.get (RecKey.partK hgt i) = some (RecVal.vPart ⟨i, cs.getD i []⟩) := by
    intro i hi
    rw [hdb6]
    simp only [saveBlockStoreState]
    rw [KVStore.get_set_other _ _ _ _ (by simp), hdb5,
      KVStore.get_set_other _ _ _ _ (by simp),
      h4frame _ (by intro j; simp), hdb3,
      KVStore.get_set_other _ _ _ _ (by simp), hdb2,
      KVStore.get_set_other _ _ _ _ (by simp), hdb1]
    have hparts : (b.makePartSet sz).parts = toParts 0 cs := rfl
    rw [hparts]
    have := saveParts_get_at bs.db hgt cs 0 i hi
    simpa using this
  have hget_hash : db6.get (RecKey.blockHashK (blockHashBytes b)) =
      some (RecVal.vHeight hgt) := by
    rw [hdb6]
    simp only [saveBlockStoreState]
    rw [KVStore.get_set_other _ _ _ _ (by simp), hdb5,
      KVStore.get_set_other _ _ _ _ (by simp),
      h4frame _ (by intro j; simp), hdb3, KVStore.get_set_same]
  have hloadmeta : (⟨db6, nb, hgt⟩ : BlockStore).loadBlockMeta hgt =
      Except.ok (some meta) := by
    simp only [BlockStore.loadBlockMeta, hget_meta]
  have hpb : (⟨db6, nb, hgt⟩ : BlockStore).partBytes hgt meta.total = Except.ok cs := by
    have htot : meta.total = cs.length := rfl
    rw [htot, partBytes_eval _ _ (fun i => cs.getD i []) cs.length
      (fun i hi => hget_part i hi), map_getD_range]
  have hlb : (⟨db6, nb, hgt⟩ : BlockStore).loadBlock hgt = Except.ok (some b) := by
    simp only [BlockStore.loadBlock, hloadmeta, hpb, hcs, chunksOf_join sz hsz,
      blockDecode_encode]
  have hlbh : (⟨db6, nb, hgt⟩ : BlockStore).loadBlockByHash (blockHashBytes b) =
      Except.ok (some b) := by
    simp only [BlockStore.loadBlockByHash, hget_hash]
    exact hlb
  refine ⟨⟨db6, nb, hgt⟩, rfl, hlb, ?_, hlbh⟩
  intro b2 hb2
  rw [hlb] at hb2
  simp only [Except.ok.injEq, Option.some.injEq] at hb2
  rw [hb2]

/-- Witness for claim C1 at concrete inputs: saving the concrete block at
height 1 into the fresh store with part size 4. -/
theorem saveBlock_roundtrip_witness :
    ∃ bs2, BlockStore.mk0.saveBlock (some blk1) (blk1.makePartSet 4) cmt10 = Except.ok bs2 ∧
      bs2.loadBlock blk1.header.height = Except.ok (some blk1) ∧
      (∀ b2, bs2.loadBlock blk1.header.height = Except.ok (some b2) →
        blockEncode b2 = blockEncode blk1) ∧
      bs2.loadBlockByHash (blockHashBytes blk1) = Except.ok (some blk1) :=
  saveBlock_roundtrip BlockStore.mk0 blk1 4 cmt10 (by decide) (Or.inl (by decide))

/-! ## Claim C10: `Block.Hash` -/

theorem fillDAH_lastCommitHash (b : Block) :
    (b.fillDAH).header.lastCommitHash = b.header.lastCommitHash := rfl

theorem fillDAH_evidenceHash (b : Block) :
    (b.fillDAH).header.evidenceHash = b.header.evidenceHash := rfl

theorem fillDAH_dataHash (b : Block) : (b.fillDAH).header.dataHash ≠ none := by
  simp [Block.fillDAH]

/-- After `fillHeader` on a block with a last commit, every derived header
field is filled. -/
theorem fillHeader_filled (b : Block) (c : Commit) (hlc : b.lastCommit = some c) :
    (b.fillHeader).header.lastCommitHash ≠ none ∧
    (b.fillHeader).header.dataHash ≠ none ∧
    (b.fillHeader).header.evidenceHash ≠ none := by
  simp only [Block.fillHeader]
  split_ifs with h1 h2 h3 <;>
    simp_all [Block.fillDAH, commitHash, hlc]

/-- Claim C10: `Block.Hash()` returns nil when the receiver is nil or its
`LastCommit` is nil; otherwise it returns the header hash of the block
after the derived header fields (last-commit hash, data hash, evidence
hash) have been filled in. -/
theorem block_hash_spec (ob : Option Block) :
    (ob = none → Block.hashOf ob = none) ∧
    (∀ b, ob = some b → b.lastCommit = none → Block.hashOf ob = none) ∧
    (∀ b, ob = some b → b.lastCommit ≠ none →
      Block.hashOf ob = (b.fillHeader).header.hashOf ∧
      (b.fillHeader).header.lastCommitHash ≠ none ∧
      (b.fillHeader).header.dataHash ≠ none ∧
      (b.fillHeader).header.evidenceHash ≠ none) := by
  refine ⟨?_, ?_, ?_⟩
  · intro h; rw [h]; rfl
  · intro b hb hlc; rw [hb]; simp [Block.hashOf, hlc]
  · intro b hb hlc
    obtain ⟨c, hc⟩ := Option.ne_none_iff_exists.mp hlc
    refine ⟨?_, fillHeader_filled b c hc.symm⟩
    rw [hb]
    simp [Block.hashOf, hlc]

theorem delParts_succ (db : KVStore) (h : Int) (n : Nat) :
    delParts db h (n + 1) = (delParts db h n).del (RecKey.partK h n) := by
  unfold delParts
  rw [List.range_succ, List.foldl_append, List.foldl_cons, List.foldl_nil]

theorem delParts_get_mem (db : KVStore) (h : Int) (n : Nat) (i : Nat) (hi : i < n) :
    (delParts db h n).get (RecKey.partK h i) = none := by
  induction n with
  | zero => omega
  | succ n ih =>
    rw [delParts_succ]
    by_cases he : i = n
    · rw [he, KVStore.get_del_same]
    · rw [KVStore.get_del_other _ _ _ (by simp [he]), ih (by omega)]

theorem delParts_get_not (db : KVStore) (h : Int) (n : Nat) (k : RecKey)
    (hk : ∀ i, i < n → k ≠ RecKey.partK h i) :
    (delParts db h n).get k = db.get k := by
  induction n with
  | zero => rfl
  | succ n ih =>
    rw [delParts_succ, KVStore.get_del_other _ _ _ (hk n (Nat.lt_succ_self n)),
      ih (fun i hi => hk i (Nat.lt_succ_of_lt hi))]

theorem pruneOne_ok (db : KVStore) (h : Int) (m : BlockMeta)
    (hm : db.get (RecKey.metaK h) = some (RecVal.vMeta m)) :
    ∃ db2, pruneOne db h = Except.ok db2 ∧
      (∀ k, k ∈ keysFor h m → db2.get k = none) ∧
      (∀ k, k ∉ keysFor h m → db2.get k = db.get k) := by
  refine ⟨_, by rw [pruneOne, show db.get (RecKey.metaK h) = _ from hm], ?_, ?_⟩
  · intro k hk
    simp only [keysFor, List.mem_cons, List.mem_map, List.mem_range] at hk
    rcases hk with hk | hk | hk | hk | ⟨i, hi, hk⟩
    · subst hk
      rw [delParts_get_not _ _ _ _ (by intro i _; simp),
        KVStore.get_del_other _ _ _ (by simp),
        KVStore.get_del_other _ _ _ (by simp),
        KVStore.get_del_other _ _ _ (by simp),
        KVStore.get_del_same]
    · subst hk
      rw [delParts_get_not _ _ _ _ (by intro i _; simp),
        KVStore.get_del_other _ _ _ (by simp),
        KVStore.get_del_other _ _ _ (by simp),
        KVStore.get_del_same]
    · subst hk
      rw [delParts_get_not _ _ _ _ (by intro i _; simp),
        KVStore.get_del_other _ _ _ (by simp),
        KVStore.get_del_same]
    · subst hk
      rw [delParts_get_not _ _ _ _ (by intro i _; simp),
        KVStore.get_del_same]
    · subst hk
      exact delParts_get_mem _ _ _ _ hi
  · intro k hk
    simp only [keysFor, List.mem_cons, List.mem_map, List.mem_range, not_or,
      not_exists] at hk
    obtain ⟨hk1, hk2, hk3, hk4, hk5⟩ := hk
    rw [delParts_get_not _ _ _ _ (fun i hi => by
        intro he
        exact hk5 i ⟨hi, he.symm⟩),
      KVStore.get_del_other _ _ _ hk4,
      KVStore.get_del_other _ _ _ hk3,
      KVStore.get_del_other _ _ _ hk2,
      KVStore.get_del_other _ _ _ hk1]

/-- Pruning a duplicate-free list of heights whose metas are present
succeeds; afterwards a key derived from one of those heights reads as
absent and every other key is untouched. -/
theorem pruneHeights_ok (hs : List Int) (db : KVStore) (hNd : hs.Nodup)
    (hmeta : ∀ h ∈ hs, ∃ m, db.get (RecKey.metaK h) = some (RecVal.vMeta m)) :
    ∃ db2, pruneHeights db hs = Except.ok db2 ∧
      (∀ k, (∃ h ∈ hs, ∃ m, db.get (RecKey.metaK h) = some (RecVal.vMeta m) ∧
          k ∈ keysFor h m) → db2.get k = none) ∧
      (∀ k, (∀ h ∈ hs, ∀ m, db.get (RecKey.metaK h) = some (RecVal.vMeta m) →
          k ∉ keysFor h m) → db2.get k = db.get k) := by
  induction hs generalizing db with
  | nil =>
    refine ⟨db, rfl, ?_, fun k _ => rfl⟩
    rintro k ⟨h, hh, _⟩
    exact absurd hh (List.not_mem_nil h)
  | cons h hs ih =>
    obtain ⟨m, hm⟩ := hmeta h (List.mem_cons_self h hs)
    obtain ⟨db1, hdb1, hdel, hkeep⟩ := pruneOne_ok db h m hm
    have hmetaeq : ∀ h2 ∈ hs, db1.get (RecKey.metaK h2) = db.get (RecKey.metaK h2) := by
      intro h2 hh2
      refine hkeep _ ?_
      simp only [keysFor, List.mem_cons, List.mem_map, List.mem_range]
      push_neg
      have hne : h2 ≠ h := by
        intro he
        rw [he] at hh2
        exact (List.nodup_cons.mp hNd).1 hh2
      refine ⟨by simp, by simp [hne], by simp, by simp, ?_⟩
      intro i _
      simp
    obtain ⟨db2, hdb2, hdel2, hkeep2⟩ := ih db1 (List.nodup_cons.mp hNd).2
      (fun h2 hh2 => (hmetaeq h2 hh2) ▸ hmeta h2 (List.mem_cons_of_mem h hh2))
    refine ⟨db2, ?_, ?_, ?_⟩
    · rw [pruneHeights, hdb1]
      exact hdb2
    · rintro k ⟨h2, hh2, m2, hm2, hk2⟩
      rcases List.mem_cons.mp hh2 with he | hh2
      · subst he
        have hm2m : m2 = m := by
          rw [hm] at hm2
          simp only [Option.some.injEq, RecVal.vMeta.injEq] at hm2
          exact hm2.symm
      -- k is deleted by the head; it stays deleted or gets deleted again
        by_cases hrest : ∃ h3 ∈ hs, ∃ m3,
            db1.get (RecKey.metaK h3) = some (RecVal.vMeta m3) ∧ k ∈ keysFor h3 m3
        · exact hdel2 k hrest
        · push_neg at hrest
          rw [hkeep2 k hrest, hdel k (hm2m ▸ hk2)]
      · refine hdel2 k ⟨h2, hh2, m2, ?_, hk2⟩
        rw [hmetaeq h2 hh2]
        exact hm2
    · intro k hk
      rw [hkeep2 k (fun h2 hh2 m2 hm2 =>
          hk h2 (List.mem_cons_of_mem h hh2) m2 ((hmetaeq h2 hh2) ▸ hm2)),
        hkeep k (hk h (List.mem_cons_self h hs) m hm)]

theorem pruneSpan_mem (base target h : Int) :
    h ∈ pruneSpan base target ↔ base ≤ h ∧ h < target := by
  simp only [pruneSpan, List.mem_map, List.mem_range]
  constructor
  · rintro ⟨n, hn, rfl⟩
    omega
  · rintro ⟨h1, h2⟩
    exact ⟨(h - base).toNat, by omega, by omega⟩

theorem pruneSpan_nodup (base target : Int) : (pruneSpan base target).Nodup := by
  refine List.Nodup.map ?_ (List.nodup_range _)
  intro a b hab
  simp only at hab
  omega

theorem partBytes_frame (bs1 bs2 : BlockStore) (h : Int)
    (hp : ∀ i, bs2.db.get (RecKey.partK h i) = bs1.db.get (RecKey.partK h i)) :
    ∀ n, bs2.partBytes h n = bs1.partBytes h n
  | 0 => rfl
  | n + 1 => by
    simp only [BlockStore.partBytes, partBytes_frame bs1 bs2 h hp n,
      BlockStore.loadBlockPart, hp n]

theorem loadBlock_frame (bs1 bs2 : BlockStore) (h : Int)
    (hm : bs2.db.get (RecKey.metaK h) = bs1.db.get (RecKey.metaK h))
    (hp : ∀ i, bs2.db.get (RecKey.partK h i) = bs1.db.get (RecKey.partK h i)) :
    bs2.loadBlock h = bs1.loadBlock h := by
  have hlm : bs2.loadBlockMeta h = bs1.loadBlockMeta h := by
    simp only [BlockStore.loadBlockMeta, hm]
  simp only [BlockStore.loadBlock, hlm, partBytes_frame bs1 bs2 h hp]

theorem mem_keysFor (h : Int) (m : BlockMeta) (k : RecKey) :
    k ∈ keysFor h m ↔
      k = RecKey.blockHashK m.blockHash ∨ k = RecKey.metaK h ∨ k = RecKey.commitK h ∨
      k = RecKey.seenCommitK h ∨ ∃ i, i < m.total ∧ k = RecKey.partK h i := by
  simp only [keysFor, List.mem_cons, List.mem_map, List.mem_range]
  constructor
  · rintro (rfl | rfl | rfl | rfl | ⟨i, hi, rfl⟩)
    · exact Or.inl rfl
    · exact Or.inr (Or.inl rfl)
    · exact Or.inr (Or.inr (Or.inl rfl))
    · exact Or.inr (Or.inr (Or.inr (Or.inl rfl)))
    · exact Or.inr (Or.inr (Or.inr (Or.inr ⟨i, hi, rfl⟩)))
  · rintro (rfl | rfl | rfl | rfl | ⟨i, hi, rfl⟩)
    · exact Or.inl rfl
    · exact Or.inr (Or.inl rfl)
    · exact Or.inr (Or.inr (Or.inl rfl))
    · exact Or.inr (Or.inr (Or.inr (Or.inl rfl)))
    · exact Or.inr (Or.inr (Or.inr (Or.inr ⟨i, hi, rfl⟩)))

theorem metaK_not_in_keysFor (h h2 : Int) (m2 : BlockMeta) (hne : h ≠ h2) :
    RecKey.metaK h ∉ keysFor h2 m2 := by
  rw [mem_keysFor]
  rintro (he | he | he | he | ⟨i, _, he⟩) <;> simp_all

theorem commitK_not_in_keysFor (h h2 : Int) (m2 : BlockMeta) (hne : h ≠ h2) :
    RecKey.commitK h ∉ keysFor h2 m2 := by
  rw [mem_keysFor]
  rintro (he | he | he | he | ⟨i, _, he⟩) <;> simp_all

theorem partK_not_in_keysFor (h h2 : Int) (i : Nat) (m2 : BlockMeta)
    (hcond : h ≠ h2 ∨ m2.total ≤ i) : RecKey.partK h i ∉ keysFor h2 m2 := by
  rw [mem_keysFor]
  rintro (he | he | he | he | ⟨j, hj, he⟩)
  · exact absurd he (by simp)
  · exact absurd he (by simp)
  · exact absurd he (by simp)
  · exact absurd he (by simp)
  · rw [RecKey.partK.injEq] at he
    obtain ⟨he1, he2⟩ := he
    rcases hcond with hc | hc
    · exact hc he1
    · omega

/-- Claim C2: on a well-formed store with window `[base, height]` and a
target with `base < target ≤ height`, `PruneBlocks(target)` returns
`target - base`, leaves `Base = target` and `Height` unchanged; afterwards
`LoadBlock`, `LoadBlockMeta`, `LoadBlockCommit` and `LoadBlockPart` return
the absent sentinel for every height below the target,
`LoadBlockByHash` returns the absent sentinel for the hash of every pruned
block, and every height in `[target, height]` remains loadable. -/
theorem pruneBlocks_spec (bs : BlockStore) (hwf : WF bs) (target : Int)
    (ht1 : bs.base < target) (ht2 : target ≤ bs.height) :
    ∃ st, bs.pruneBlocks target = Except.ok (target - bs.base, st) ∧
      st.base = target ∧ st.height = bs.height ∧
      (∀ h : Int, h < target →
        st.loadBlock h = Except.ok none ∧
        st.loadBlockMeta h = Except.ok none ∧
        st.loadBlockCommit h = Except.ok none ∧
        (∀ i, st.loadBlockPart h i = Except.ok none)) ∧
      (∀ h : Int, bs.base ≤ h → h < target → ∀ m : BlockMeta,
        bs.db.get (RecKey.metaK h) = some (RecVal.vMeta m) →
        st.loadBlockByHash m.blockHash = Except.ok none) ∧
      (∀ h : Int, target ≤ h → h ≤ bs.height →
        ∃ b, st.loadBlock h = Except.ok (some b)) := by
  have hbp := hwf.base_pos
  have hbl := hwf.base_le
  obtain ⟨db2, hdb2, hdel, hkeep⟩ := pruneHeights_ok (pruneSpan bs.base target) bs.db
    (pruneSpan_nodup _ _)
    (fun h hh => hwf.metas h ((pruneSpan_mem _ _ _).mp hh).1
      (by have := ((pruneSpan_mem _ _ _).mp hh).2; omega))
  have hcalc : bs.pruneBlocks target =
      Except.ok (target - bs.base,
        ⟨saveBlockStoreState ⟨target, bs.height⟩ db2, target, bs.height⟩) := by
    unfold BlockStore.pruneBlocks
    rw [if_neg (by omega), if_neg (by omega), if_neg (by omega), if_neg (by omega), hdb2]
  have hstget : ∀ k : RecKey, k ≠ RecKey.stateK →
      (saveBlockStoreState ⟨target, bs.height⟩ db2).get k = db2.get k := by
    intro k hk
    simp only [saveBlockStoreState]
    exact KVStore.get_set_other _ _ _ _ hk
  -- keys of heights outside the pruned span are untouched
  have hkeepmeta : ∀ h : Int, (h < bs.base ∨ target ≤ h) →
      db2.get (RecKey.metaK h) = bs.db.get (RecKey.metaK h) := by
    intro h hh
    refine hkeep _ (fun h2 hh2 m2 _ => ?_)
    have := (pruneSpan_mem _ _ _).mp hh2
    exact metaK_not_in_keysFor h h2 m2 (by omega)
  have hkeepcommit : ∀ h : Int, (h < bs.base ∨ target ≤ h) →
      db2.get (RecKey.commitK h) = bs.db.get (RecKey.commitK h) := by
    intro h hh
    refine hkeep _ (fun h2 hh2 m2 _ => ?_)
    have := (pruneSpan_mem _ _ _).mp hh2
    exact commitK_not_in_keysFor h h2 m2 (by omega)
  have hkeeppart : ∀ (h : Int) (i : Nat), (h < bs.base ∨ target ≤ h) →
      db2.get (RecKey.partK h i) = bs.db.get (RecKey.partK h i) := by
    intro h i hh
    refine hkeep _ (fun h2 hh2 m2 _ => ?_)
    have := (pruneSpan_mem _ _ _).mp hh2
    exact partK_not_in_keysFor h h2 i m2 (Or.inl (by omega))
  -- keys of pruned heights are gone
  have habs_meta : ∀ h : Int, h < target → db2.get (RecKey.metaK h) = none := by
    intro h hh
    by_cases hb : bs.base ≤ h
    · obtain ⟨m, hm⟩ := hwf.metas h hb (by omega)
      exact hdel _ ⟨h, (pruneSpan_mem _ _ _).mpr ⟨hb, hh⟩, m, hm,
        (mem_keysFor _ _ _).mpr (Or.inr (Or.inl rfl))⟩
    · rw [hkeepmeta h (by omega)]
      exact hwf.below_meta h (by omega)
  have habs_commit : ∀ h : Int, h < target → db2.get (RecKey.commitK h) = none := by
    intro h hh
    by_cases hb : bs.base ≤ h
    · obtain ⟨m, hm⟩ := hwf.metas h hb (by omega)
      exact hdel _ ⟨h, (pruneSpan_mem _ _ _).mpr ⟨hb, hh⟩, m, hm,
        (mem_keysFor _ _ _).mpr (Or.inr (Or.inr (Or.inl rfl)))⟩
    · rw [hkeepcommit h (by omega)]
      exact hwf.below_commit h (by omega)
  have habs_part : ∀ (h : Int) (i : Nat), h < target →
      db2.get (RecKey.partK h i) = none := by
    intro h i hh
    by_cases hb : bs.base ≤ h
    · obtain ⟨m, hm⟩ := hwf.metas h hb (by omega)
      by_cases hi : i < m.total
      · exact hdel _ ⟨h, (pruneSpan_mem _ _ _).mpr ⟨hb, hh⟩, m, hm,
          (mem_keysFor _ _ _).mpr (Or.inr (Or.inr (Or.inr (Or.inr ⟨i, hi, rfl⟩))))⟩
      · rw [hkeep _ ?_]
        · exact hwf.part_dom h i m hm (by omega)
        · intro h2 hh2 m2 hm2
          by_cases heq : h = h2
          · subst heq
            have hm2m : m2 = m := by
              rw [hm] at hm2
              simp only [Option.some.injEq, RecVal.vMeta.injEq] at hm2
              exact hm2.symm
            subst hm2m
            exact partK_not_in_keysFor h h i m2 (Or.inr (by omega))
          · exact partK_not_in_keysFor h h2 i m2 (Or.inl heq)
    · rw [hkeeppart h i (by omega)]
      exact hwf.below_part h i (by omega)
  refine ⟨⟨saveBlockStoreState ⟨target, bs.height⟩ db2, target, bs.height⟩,
    hcalc, rfl, rfl, ?_, ?_, ?_⟩
  · intro h hh
    have hgm : (⟨saveBlockStoreState ⟨target, bs.height⟩ db2, target, bs.height⟩ :
        BlockStore).db.get (RecKey.metaK h) = none := by
      show (saveBlockStoreState ⟨target, bs.height⟩ db2).get (RecKey.metaK h) = none
      rw [hstget _ (by simp)]
      exact habs_meta h hh
    have hgc : (⟨saveBlockStoreState ⟨target, bs.height⟩ db2, target, bs.height⟩ :
        BlockStore).db.get (RecKey.commitK h) = none := by
      show (saveBlockStoreState ⟨target, bs.height⟩ db2).get (RecKey.commitK h) = none
      rw [hstget _ (by simp)]
      exact habs_commit h hh
    refine ⟨?_, ?_, ?_, ?_⟩
    · simp only [BlockStore.loadBlock, BlockStore.loadBlockMeta, hgm]
    · simp only [BlockStore.loadBlockMeta, hgm]
    · simp only [BlockStore.loadBlockCommit, hgc]
    · intro i
      have hgp : (⟨saveBlockStoreState ⟨target, bs.height⟩ db2, target, bs.height⟩ :
          BlockStore).db.get (RecKey.partK h i) = none := by
        show (saveBlockStoreState ⟨target, bs.height⟩ db2).get (RecKey.partK h i) = none
        rw [hstget _ (by simp)]
        exact habs_part h i hh
      simp only [BlockStore.loadBlockPart, hgp]
  · intro h hh1 hh2 m hm
    have hgb : (⟨saveBlockStoreState ⟨target, bs.height⟩ db2, target, bs.height⟩ :
        BlockStore).db.get (RecKey.blockHashK m.blockHash) = none := by
      show (saveBlockStoreState ⟨target, bs.height⟩ db2).get
        (RecKey.blockHashK m.blockHash) = none
      rw [hstget _ (by simp)]
      exact hdel _ ⟨h, (pruneSpan_mem _ _ _).mpr ⟨hh1, hh2⟩, m, hm,
        (mem_keysFor _ _ _).mpr (Or.inl rfl)⟩
    simp only [BlockStore.loadBlockByHash, hgb]
  · intro h hh1 hh2
    obtain ⟨b, hb⟩ := hwf.loadable h (by omega) hh2
    refine ⟨b, ?_⟩
    rw [loadBlock_frame bs _ h ?_ ?_]
    · exact hb
    · show (saveBlockStoreState ⟨target, bs.height⟩ db2).get (RecKey.metaK h) =
        bs.db.get (RecKey.metaK h)
      rw [hstget _ (by simp)]
      exact hkeepmeta h (Or.inr hh1)
    · intro i
      show (saveBlockStoreState ⟨target, bs.height⟩ db2).get (RecKey.partK h i) =
        bs.db.get (RecKey.partK h i)
      rw [hstget _ (by simp)]
      exact hkeeppart h i (Or.inr hh1)

theorem c2bs_wf : WF c2bs := by
  refine ⟨by norm_num [c2bs], by norm_num [c2bs], ?_, ?_, ?_, ?_, ?_, ?_⟩
  · intro h h1 h2
    have h1 : (1 : Int) ≤ h := h1
    have h2 : h ≤ (2 : Int) := h2
    interval_cases h
    · exact ⟨c2m1, rfl⟩
    · exact ⟨c2m2, rfl⟩
  · intro h h1 h2
    have h1 : (1 : Int) ≤ h := h1
    have h2 : h ≤ (2 : Int) := h2
    interval_cases h
    · exact ⟨blk1, rfl⟩
    · exact ⟨blk1, rfl⟩
  · intro h hh
    have hh : h < (1 : Int) := hh
    show c2db.get (RecKey.metaK h) = none
    unfold c2db
    rw [KVStore.get_set_other _ _ _ _ (by simp),
      KVStore.get_set_other _ _ _ _ (by simp only [ne_eq, RecKey.metaK.injEq]; omega),
      KVStore.get_set_other _ _ _ _ (by simp),
      KVStore.get_set_other _ _ _ _ (by simp only [ne_eq, RecKey.metaK.injEq]; omega)]
    rfl
  · intro h hh
    have hh : h < (1 : Int) := hh
    show c2db.get (RecKey.commitK h) = none
    unfold c2db
    rw [KVStore.get_set_other _ _ _ _ (by simp),
      KVStore.get_set_other _ _ _ _ (by simp),
      KVStore.get_set_other _ _ _ _ (by simp),
      KVStore.get_set_other _ _ _ _ (by simp)]
    rfl
  · intro h i hh
    have hh : h < (1 : Int) := hh
    show c2db.get (RecKey.partK h i) = none
    unfold c2db
    rw [KVStore.get_set_other _ _ _ _
        (by simp only [ne_eq, RecKey.partK.injEq, not_and]; intro he; omega),
      KVStore.get_set_other _ _ _ _ (by simp),
      KVStore.get_set_other _ _ _ _
        (by simp only [ne_eq, RecKey.partK.injEq, not_and]; intro he; omega),
      KVStore.get_set_other _ _ _ _ (by simp)]
    rfl
  · intro h i m hm hi
    by_cases h2 : h = 2
    · subst h2
      have hmv : m = c2m2 := by
        have he : c2bs.db.get (RecKey.metaK 2) = some (RecVal.vMeta c2m2) := rfl
        rw [he] at hm
        simp only [Option.some.injEq, RecVal.vMeta.injEq] at hm
        exact hm.symm
      subst hmv
      have hi2 : 1 ≤ i := hi
      show c2db.get (RecKey.partK 2 i) = none
      unfold c2db
      rw [KVStore.get_set_other _ _ _ _
          (by simp only [ne_eq, RecKey.partK.injEq, not_and]; intro _; omega),
        KVStore.get_set_other _ _ _ _ (by simp),
        KVStore.get_set_other _ _ _ _ (by simp),
        KVStore.get_set_other _ _ _ _ (by simp)]
      rfl
    · by_cases h1 : h = 1
      · subst h1
        have hmv : m = c2m1 := by
          have he : c2bs.db.get (RecKey.metaK 1) = some (RecVal.vMeta c2m1) := rfl
          rw [he] at hm
          simp only [Option.some.injEq, RecVal.vMeta.injEq] at hm
          exact hm.symm
        subst hmv
        have hi2 : 1 ≤ i := hi
        show c2db.get (RecKey.partK 1 i) = none
        unfold c2db
        rw [KVStore.get_set_other _ _ _ _ (by simp),
          KVStore.get_set_other _ _ _ _ (by simp),
          KVStore.get_set_other _ _ _ _
            (by simp only [ne_eq, RecKey.partK.injEq, not_and]; intro _; omega),
          KVStore.get_set_other _ _ _ _ (by simp)]
        rfl
      · exfalso
        have he : c2bs.db.get (RecKey.metaK h) = none := by
          show c2db.get (RecKey.metaK h) = none
          unfold c2db
          rw [KVStore.get_set_other _ _ _ _ (by simp),
            KVStore.get_set_other _ _ _ _
              (by simp only [ne_eq, RecKey.metaK.injEq]; exact h2),
            KVStore.get_set_other _ _ _ _ (by simp),
            KVStore.get_set_other _ _ _ _
              (by simp only [ne_eq, RecKey.metaK.injEq]; exact h1)]
          rfl
        rw [he] at hm
        simp at hm

/-- Witness for claim C2 at the concrete store: pruning the window `[1, 2]`
to target 2. -/
theorem pruneBlocks_spec_witness :
    ∃ st, c2bs.pruneBlocks 2 = Except.ok (2 - c2bs.base, st) ∧
      st.base = 2 ∧ st.height = c2bs.height ∧
      (∀ h : Int, h < 2 →
        st.loadBlock h = Except.ok none ∧
        st.loadBlockMeta h = Except.ok none ∧
        st.loadBlockCommit h = Except.ok none ∧
        (∀ i, st.loadBlockPart h i = Except.ok none)) ∧
      (∀ h : Int, c2bs.base ≤ h → h < 2 → ∀ m : BlockMeta,
        c2bs.db.get (RecKey.metaK h) = some (RecVal.vMeta m) →
        st.loadBlockByHash m.blockHash = Except.ok none) ∧
      (∀ h : Int, 2 ≤ h → h ≤ c2bs.height →
        ∃ b, st.loadBlock h = Except.ok (some b)) :=
  pruneBlocks_spec c2bs c2bs_wf 2 (by norm_num [c2bs]) (by norm_num [c2bs])

/-- Witness for claim C10 at concrete blocks: the nil receiver, the
concrete block stripped of its last commit, and the concrete block with its
last commit. -/
theorem block_hash_spec_witness :
    Block.hashOf none = none ∧
    Block.hashOf (some { blk1 with lastCommit := none }) = none ∧
    (Block.hashOf (some blk1) = (blk1.fillHeader).header.hashOf ∧
      (blk1.fillHeader).header.lastCommitHash ≠ none ∧
      (blk1.fillHeader).header.dataHash ≠ none ∧
      (blk1.fillHeader).header.evidenceHash ≠ none) :=
  ⟨(block_hash_spec none).1 rfl,
   (block_hash_spec (some { blk1 with lastCommit := none })).2.1 _ rfl rfl,
   (block_hash_spec (some blk1)).2.2 blk1 rfl (by simp [blk1])⟩

end LazyStore
